import Mathlib

/-!
# Verification of the `crawl-data` web crawler

A shallow embedding of `src/web_scraper.py` (class `WebCrawler`) together with
proofs of the behavioural claims about it.

Python strings are modelled as `List Char`; Python's `set` of visited URLs is
modelled as a duplicate-free list (elements are only inserted after a
membership test, exactly as the source tests `url in self.visited_urls`);
external capabilities (the HTTP session, `urllib.parse`, `validators.url`,
`random.shuffle`) are oracle fields of a `World` structure.
-/

namespace CrawlData

/-- Python strings, modelled as lists of characters. -/
abbrev Str := List Char

/-! ## Fetch gateway (`WebCrawler.get_page_content`, lines 131-167)

The body is one `try` block: `can_fetch` (which always returns `True`), the
request itself (`self.session.get` + `response.raise_for_status()`, or the
selenium branch), then `time.sleep(self.config.get('request_delay', 1))` and
`return html_content`.  Any exception jumps to the `except` handler, which
returns `None`.  We model the outcome of the request attempt as an input and
record whether the rate-limiting sleep was executed. -/

/-- Outcome of the raw request attempt inside the `try` block of
`get_page_content`: either the HTML body, or the message of the exception that
was raised (timeout, connection failure, or a non-success status raised by
`raise_for_status`, after the session's retries were exhausted). -/
inductive FetchAttempt where
  | ok : Str → FetchAttempt
  | err : Str → FetchAttempt
deriving DecidableEq

/-- Observable result of `get_page_content`: the returned value (`None` on
failure) and whether `time.sleep(request_delay)` was executed. -/
structure FetchOutcome where
  content : Option Str
  sleptDelay : Bool
deriving DecidableEq

/-- Models `WebCrawler.get_page_content` (lines 141-167): on a successful
attempt the function sleeps for `request_delay` and returns the content; an
exception is caught by the `except` handler (line 165), which returns `None`
— control never reaches the `time.sleep` call on that path. -/
def get_page_content (attempt : FetchAttempt) : FetchOutcome :=
  match attempt with
  | .ok html => { content := some html, sleptDelay := true }
  | .err _ => { content := none, sleptDelay := false }

/-! ## Exporter (`WebCrawler.export_to_csv`, lines 335-361) and the
pipe-delimited heading fields. -/

/-- The separator `' | '` used at lines 350-352 to flatten heading lists. -/
def sepChars : Str := [' ', '|', ' ']

/-- Python `' | '.join(xs)` on a list of strings: `List.intercalate`. -/
def joinStrs (xs : List Str) : Str := List.intercalate sepChars xs

/-- One CSV field of a crawled record.  In the Python dict the heading fields
`h1`, `h2`, `h3_plus` start as lists of strings and are overwritten with
joined strings by `export_to_csv`, so the field is a union type. -/
inductive CsvField where
  | items : List Str → CsvField
  | text : Str → CsvField
deriving DecidableEq

/-- Python `' | '.join(v)` as applied at lines 350-352.  When `v` is still a
list it joins the list; when `v` is already a string (as after a previous
call to `export_to_csv`), Python iterates the string character by character
and joins the one-character strings. -/
def pyJoinField : CsvField → Str
  | .items xs => joinStrs xs
  | .text s => joinStrs (s.map (fun c => [c]))

/-- A record of `self.data` as produced by `extract_text_elements`
(lines 209-219): the dict keys in order. -/
structure CsvRecord where
  url : Str
  title : Str
  meta_description : Str
  h1 : CsvField
  h2 : CsvField
  h3_plus : CsvField
  body_text : Str
  date_crawled : Str
  errors : Str
deriving DecidableEq

/-- The in-place mutation performed on every record by the loop at
lines 349-352: the three heading fields are replaced by their `' | '`-join;
every other key is untouched. -/
def joinRecord (r : CsvRecord) : CsvRecord :=
  { r with
    h1 := .text (pyJoinField r.h1)
    h2 := .text (pyJoinField r.h2)
    h3_plus := .text (pyJoinField r.h3_plus) }

/-- Observable result of one call to `export_to_csv`: whether a file write
completed, which log messages were emitted, the Python return value (the
function has no `return` statement with a value, so it is `None` on every
path, modelled as `none`), the rows written, and the contents of `self.data`
after the call (the loop at lines 349-352 mutates the stored records). -/
structure ExportResult where
  wroteFile : Bool
  loggedNoData : Bool
  loggedError : Bool
  retval : Option Bool
  rowsWritten : List CsvRecord
  newData : List CsvRecord
deriving DecidableEq

/-- Models `WebCrawler.export_to_csv` (lines 335-361).  `writeOk` is the
outcome of the file I/O inside the `try` block: when it fails, the exception
is caught at line 360 and logged.  The mutation of `self.data` (lines
349-352) happens inside the `with open` block before the rows are written. -/
def export_to_csv (data : List CsvRecord) (writeOk : Bool) : ExportResult :=
  if data.isEmpty then
    { wroteFile := false, loggedNoData := true, loggedError := false,
      retval := none, rowsWritten := [], newData := data }
  else
    let newData := data.map joinRecord
    if writeOk then
      { wroteFile := true, loggedNoData := false, loggedError := false,
        retval := none, rowsWritten := newData, newData := newData }
    else
      { wroteFile := false, loggedNoData := false, loggedError := true,
        retval := none, rowsWritten := [], newData := newData }

/-! ### Re-splitting a joined heading field

The spec's round-trip property re-splits the exported field on the same
delimiter.  `pySplit` models Python's `s.split(' | ')`: scan left to right,
cut at each leftmost non-overlapping occurrence of the separator; in
particular `''.split(' | ') == ['']`. -/

/-- Auxiliary scanner for `pySplit`: `acc` holds the reversed characters of
the piece currently being built. -/
def splitAux (s : List Char) (acc : List Char) : List (List Char) :=
  match s with
  | [] => [acc.reverse]
  | c :: rest =>
    if sepChars.isPrefixOf (c :: rest) then acc.reverse :: splitAux (rest.drop 2) []
    else splitAux rest (c :: acc)
termination_by s.length
decreasing_by
  · simp only [List.length_drop, List.length_cons]; omega
  · simp only [List.length_cons]; omega

/-- Python `s.split(' | ')`, the re-splitting step of the spec's round-trip
property for exported heading fields. -/
def pySplit (s : Str) : List Str := splitAux s []

/-! ## The crawler proper

`WebCrawler` holds its configuration dict, the visited set, the pending queue
`urls_to_visit`, the depth counter and the record list `self.data`.  The
configuration structure below holds the value each `config.get(...)` call
resolves to; `max_pages` is `none` for the default `float('inf')`. -/

/-- The configuration values read by `__init__`, `is_valid_url`,
`extract_links` and `crawl`. -/
structure Config where
  start_url : Str
  max_depth : Nat
  max_pages : Option Nat
  restrict_to_domain : Bool
  ignore_extensions : List Str
  ignore_url_params : Bool
  max_queue_size : Nat
  breadth_first : Bool

/-- A parsed page (`BeautifulSoup(html_content, 'html.parser')`), reduced to
what `extract_links` reads from it: the `href` attribute of every `<a>` tag,
in document order. -/
structure Soup where
  anchors : List Str

/-- The external capabilities the crawler calls out to:
`validators.url`, `urllib.parse.urlparse(...).netloc`,
`urllib.parse.urljoin`, the outcome of `get_page_content` followed by
parsing (`none` when the fetch failed and the URL is skipped), and
`random.shuffle` (which permutes its argument). -/
structure World where
  validators_url : Str → Bool
  netloc : Str → Str
  urljoin : Str → Str → Str
  fetch : Str → Option Soup
  shuffle : List Str → List Str
  shuffle_perm : ∀ l, List.Perm (shuffle l) l

/-- Python `url.lower()`. -/
def lowerStr (u : Str) : Str := u.map Char.toLower

/-- The extension filter of `is_valid_url` (lines 125-127):
`any(url.lower().endswith(ext) for ext in ignore_extensions)` — note the
extension itself is not lowered. -/
def hasIgnoredExt (cfg : Config) (url : Str) : Bool :=
  cfg.ignore_extensions.any (fun e => e.isSuffixOf (lowerStr url))

/-- Models `WebCrawler.is_valid_url` (lines 104-129): reject syntactically
invalid URLs, then (if domain restriction is on) URLs whose netloc differs
from the seed's, then URLs ending in an ignored extension. -/
def is_valid_url (cfg : Config) (w : World) (url : Str) : Bool :=
  if !(w.validators_url url) then false
  else if cfg.restrict_to_domain && !(w.netloc url == w.netloc cfg.start_url) then false
  else if hasIgnoredExt cfg url then false
  else true

/-- Lines 186-188 of `extract_links`: when `ignore_url_params` is set,
`absolute_url.split('#')[0]` then `.split('?')[0]` — i.e. the part before
the first `'#'`, then the part before the first `'?'`. -/
def strip_fragment_query (cfg : Config) (u : Str) : Str :=
  if cfg.ignore_url_params then
    (u.takeWhile (fun c => !(c == '#'))).takeWhile (fun c => !(c == '?'))
  else u

/-- Resolution of one anchor `href` (lines 183-188): `urljoin` against the
page's own URL, then optional fragment/query stripping. -/
def resolveHref (cfg : Config) (w : World) (base_url href : Str) : Str :=
  strip_fragment_query cfg (w.urljoin base_url href)

/-- The `for a_tag in soup.find_all('a', href=True)` loop of `extract_links`
(lines 180-196): `links` accumulates, in anchor order, every resolved URL
that is valid, not in `self.visited_urls` and not in `self.urls_to_visit`.
Both membership checks are against the state at call time — the local
`links` list itself is never consulted. -/
def extract_links_loop (cfg : Config) (w : World) (visited pending : List Str)
    (base_url : Str) : List Str → List Str → List Str
  | [], links => links
  | href :: rest, links =>
    let absolute_url := resolveHref cfg w base_url href
    if is_valid_url cfg w absolute_url = true ∧ absolute_url ∉ visited ∧
        absolute_url ∉ pending then
      extract_links_loop cfg w visited pending base_url rest (links ++ [absolute_url])
    else
      extract_links_loop cfg w visited pending base_url rest links

/-- Models `WebCrawler.extract_links` (lines 169-196). `visited` and
`pending` are `self.visited_urls` and `self.urls_to_visit` at call time. -/
def extract_links (cfg : Config) (w : World) (soup : Soup) (base_url : Str)
    (visited pending : List Str) : List Str :=
  extract_links_loop cfg w visited pending base_url soup.anchors []

/-- The mutable crawler state of one `crawl()` run: `self.visited_urls`
(a set, here a duplicate-free list), `self.urls_to_visit`,
`self.current_depth` and the URLs of the records appended to `self.data`.
`fetched` is a ghost log of every call to `get_page_content`. -/
structure CrawlState where
  visited : List Str
  urls_to_visit : List Str
  current_depth : Nat
  data : List Str
  fetched : List Str
deriving DecidableEq

/-- The budget test at line 295:
`len(self.visited_urls) >= self.config.get('max_pages', float('inf'))`. -/
def maxPagesReached (cfg : Config) (n : Nat) : Bool :=
  match cfg.max_pages with
  | some m => decide (m ≤ n)
  | none => false

/-- The body of the inner `for url in urls_at_current_depth` loop of
`crawl()` (lines 287-313).  Returns the new state and whether the `break` at
line 297 fired: skip visited URLs; add the URL to the visited set; if the
page budget is now reached, `break` (before any fetch); otherwise fetch
(logged in `fetched`), and on success append a record and — when the next
depth is still allowed — extend `urls_to_visit` with the extracted links. -/
def processUrl (cfg : Config) (w : World) (st : CrawlState) (url : Str) :
    CrawlState × Bool :=
  if url ∈ st.visited then (st, false)
  else
    let st1 : CrawlState := { st with visited := url :: st.visited }
    if maxPagesReached cfg st1.visited.length then (st1, true)
    else
      let st2 : CrawlState := { st1 with fetched := st1.fetched ++ [url] }
      match w.fetch url with
      | none => (st2, false)
      | some soup =>
        let st3 : CrawlState := { st2 with data := st2.data ++ [url] }
        if st3.current_depth < cfg.max_depth then
          ({ st3 with urls_to_visit := st3.urls_to_visit ++
              extract_links cfg w soup url st3.visited st3.urls_to_visit }, false)
        else (st3, false)

/-- The inner `for` loop over one depth's batch, with the `break` of
line 297 ending the batch early. -/
def processBatch (cfg : Config) (w : World) : CrawlState → List Str → CrawlState
  | st, [] => st
  | st, url :: rest =>
    let r := processUrl cfg w st url
    if r.2 then r.1 else processBatch cfg w r.1 rest

/-- Lines 319-327 of `crawl()`: after a batch, the next-depth queue is
shuffled when `breadth_first` is not set, then truncated to
`max_queue_size` (keeping the head). -/
def nextQueue (cfg : Config) (w : World) (q : List Str) : List Str :=
  let q1 := if cfg.breadth_first then q else w.shuffle q
  if q1.length > cfg.max_queue_size then q1.take cfg.max_queue_size else q1

/-- One iteration of the `while` loop of `crawl()` (lines 282-327): drain
`urls_to_visit` into the current batch, process it, increment the depth,
shuffle the next queue unless breadth-first, and cap it at
`max_queue_size`. -/
def crawlStep (cfg : Config) (w : World) (st : CrawlState) : CrawlState :=
  let st1 := processBatch cfg w { st with urls_to_visit := [] } st.urls_to_visit
  { st1 with current_depth := st1.current_depth + 1,
             urls_to_visit := nextQueue cfg w st1.urls_to_visit }

/-- The `while self.urls_to_visit and self.current_depth <= max_depth` loop,
written with explicit fuel.  The depth counter increases by one every
iteration and the guard requires it to stay `≤ max_depth`, so the loop runs
at most `max_depth + 1` times; any fuel of at least `max_depth + 2` reaches
the state on which the guard fails. -/
def crawlLoop (cfg : Config) (w : World) : Nat → CrawlState → CrawlState
  | 0, st => st
  | fuel + 1, st =>
    if st.urls_to_visit ≠ [] ∧ st.current_depth ≤ cfg.max_depth then
      crawlLoop cfg w fuel (crawlStep cfg w st)
    else st

/-- The crawler state right after `__init__` (lines 54-57):
`visited_urls = set()`, `urls_to_visit = [config['start_url']]`,
`current_depth = 0`, `data = []`. -/
def initState (cfg : Config) : CrawlState :=
  { visited := [], urls_to_visit := [cfg.start_url], current_depth := 0,
    data := [], fetched := [] }

/-- Models `WebCrawler.crawl` (lines 276-333). -/
def crawl (cfg : Config) (w : World) : CrawlState :=
  crawlLoop cfg w (cfg.max_depth + 2) (initState cfg)

/-- The acceptance test applied to each resolved anchor URL in
`extract_links` (lines 191-193), as a boolean predicate. -/
def linkPred (cfg : Config) (w : World) (visited pending : List Str) (u : Str) : Bool :=
  is_valid_url cfg w u && (!(decide (u ∈ visited)) && !(decide (u ∈ pending)))

/-! ## Invariants of one crawl run -/

/-- Bookkeeping invariant of `crawl()`: the visited set and the fetch log
are duplicate-free, every fetched URL was first marked visited, records are
no more numerous than fetches, and under a finite page budget `m` the number
of fetches stays below `max m 1`. -/
def InvA (cfg : Config) (st : CrawlState) : Prop :=
  st.visited.Nodup ∧ st.fetched.Nodup ∧ (∀ u ∈ st.fetched, u ∈ st.visited) ∧
  st.data.length ≤ st.fetched.length ∧
  (∀ m, cfg.max_pages = some m → st.fetched.length < max m 1)

/-- A URL that may legitimately reach the frontier: either the seed (placed
in `urls_to_visit` by `__init__` without any validation) or a URL that
passed `is_valid_url`. -/
def UrlOk (cfg : Config) (w : World) (u : Str) : Prop :=
  u = cfg.start_url ∨ is_valid_url cfg w u = true

/-- Provenance invariant: every URL in the queue, the record list and the
fetch log is the seed or passed `is_valid_url`. -/
def InvC (cfg : Config) (w : World) (st : CrawlState) : Prop :=
  (∀ u ∈ st.urls_to_visit, UrlOk cfg w u) ∧ (∀ u ∈ st.data, UrlOk cfg w u) ∧
  (∀ u ∈ st.fetched, UrlOk cfg w u)

/-- Page-budget invariant for `max_pages = some m`: the visited set exceeds
`m` by at most one, and can only exceed `m` at all once the queue has been
emptied (so the loop is about to terminate). -/
def InvP (m : Nat) (st : CrawlState) : Prop :=
  st.visited.length ≤ m + 1 ∧ (st.urls_to_visit ≠ [] → st.visited.length ≤ m)

/-! ## Concrete configurations and worlds used as test inputs -/

/-- A crawl budgeted at three pages over a site where the seed links to two
pages and the first of those links to a third. -/
def cfgBudget : Config :=
  { start_url := "s".toList, max_depth := 2, max_pages := some 3,
    restrict_to_domain := false, ignore_extensions := [],
    ignore_url_params := true, max_queue_size := 1000, breadth_first := true }

/-- The site for `cfgBudget`: `s → a, b` and `a → c`. -/
def worldBudget : World :=
  { validators_url := fun _ => true, netloc := fun _ => [],
    urljoin := fun _ href => href,
    fetch := fun u =>
      if u = "s".toList then some ⟨["a".toList, "b".toList]⟩
      else if u = "a".toList then some ⟨["c".toList]⟩
      else some ⟨[]⟩,
    shuffle := fun l => l, shuffle_perm := fun l => List.Perm.refl l }

/-- A crawl whose page budget is exactly one. -/
def cfgBudgetOne : Config :=
  { start_url := "s".toList, max_depth := 3, max_pages := some 1,
    restrict_to_domain := false, ignore_extensions := [],
    ignore_url_params := true, max_queue_size := 1000, breadth_first := true }

/-- A crawl with `max_depth = 0` whose seed page contains an anchor. -/
def cfgDepth0 : Config :=
  { start_url := "s".toList, max_depth := 0, max_pages := none,
    restrict_to_domain := false, ignore_extensions := [],
    ignore_url_params := true, max_queue_size := 1000, breadth_first := true }

/-- Every fetch succeeds and every page carries one anchor. -/
def worldDepth0 : World :=
  { validators_url := fun _ => true, netloc := fun _ => [],
    urljoin := fun _ href => href, fetch := fun _ => some ⟨["a".toList]⟩,
    shuffle := fun l => l, shuffle_perm := fun l => List.Perm.refl l }

/-- A configuration whose seed URL itself ends in the ignored extension
`.pdf`. -/
def cfgSeedExt : Config :=
  { start_url := "http://x/a.pdf".toList, max_depth := 0, max_pages := none,
    restrict_to_domain := false, ignore_extensions := [".pdf".toList],
    ignore_url_params := true, max_queue_size := 1000, breadth_first := true }

/-- The seed of `cfgSeedExt` fetches successfully (as a plain page with no
anchors). -/
def worldSeedExt : World :=
  { validators_url := fun _ => true, netloc := fun _ => [],
    urljoin := fun _ href => href, fetch := fun _ => some ⟨[]⟩,
    shuffle := fun l => l, shuffle_perm := fun l => List.Perm.refl l }

/-- A configuration filtering `.pdf` links, seeded at `http://x/`. -/
def cfgLinks : Config :=
  { start_url := "http://x/".toList, max_depth := 1, max_pages := none,
    restrict_to_domain := false, ignore_extensions := [".pdf".toList],
    ignore_url_params := true, max_queue_size := 1000, breadth_first := true }

/-- The seed of `cfgLinks` links to `http://x/p`; every other page has no
anchors. -/
def worldLinks : World :=
  { validators_url := fun _ => true, netloc := fun _ => [],
    urljoin := fun _ href => href,
    fetch := fun u =>
      if u = "http://x/".toList then some ⟨["http://x/p".toList]⟩
      else some ⟨[]⟩,
    shuffle := fun l => l, shuffle_perm := fun l => List.Perm.refl l }

/-- A page whose two anchors resolve to the same URL. -/
def soupDupAnchors : Soup := ⟨["http://x/p".toList, "http://x/p".toList]⟩

/-- A sample record with one two-character `h1` heading. -/
def recSample : CsvRecord :=
  { url := "u".toList, title := [], meta_description := [],
    h1 := .items ["ab".toList], h2 := .items [], h3_plus := .items [],
    body_text := [], date_crawled := [], errors := [] }

/-! # Theorems -/

/-! ## C5 — the rate-limiting delay in `get_page_content` -/

/-- C5, counterexample: the claim says the inter-request delay is performed
whether the attempt succeeds or fails.  On a failed attempt (a request
exception or a non-success status after retries), the exception skips
straight to the `except` handler and `None` is returned with no delay. -/
theorem get_page_content_failure_no_delay :
    (get_page_content (.err "timeout".toList)).sleptDelay = false ∧
    (get_page_content (.err "timeout".toList)).content = none :=
  ⟨rfl, rfl⟩

/-- C5, amended: `get_page_content` sleeps for the configured inter-request
delay exactly when the attempt succeeds (returns content); a failed attempt
returns `None` without the delay. -/
theorem get_page_content_delay_iff_success (a : FetchAttempt) :
    (get_page_content a).sleptDelay = (get_page_content a).content.isSome := by
  cases a <;> rfl

/-! ## C8 — outcome reporting of `export_to_csv` -/

/-- C8, counterexample: the claim says an I/O failure is surfaced as a
boolean failure value to the caller.  `export_to_csv` has no `return`
statement carrying a value: on an I/O failure the exception is caught and
logged and the function returns `None`, not a boolean. -/
theorem export_failure_returns_none :
    (export_to_csv [recSample] false).retval = none ∧
    (export_to_csv [recSample] false).loggedError = true ∧
    ∀ b : Bool, (export_to_csv [recSample] false).retval ≠ some b := by
  decide

/-- C8, amended: with an empty result sequence `export_to_csv` logs and
returns without writing; an I/O failure during writing is caught and logged
rather than propagated; but in every case the function returns `None` — no
boolean success/failure value is surfaced to the caller. -/
theorem export_retval_none (data : List CsvRecord) (writeOk : Bool) :
    (export_to_csv data writeOk).retval = none ∧
    (data = [] → export_to_csv data writeOk =
      { wroteFile := false, loggedNoData := true, loggedError := false,
        retval := none, rowsWritten := [], newData := data }) ∧
    (data ≠ [] → writeOk = false →
      (export_to_csv data writeOk).loggedError = true ∧
      (export_to_csv data writeOk).wroteFile = false) := by
  rcases data with _ | ⟨r, rest⟩ <;> cases writeOk <;>
    simp [export_to_csv]

/-- Witness for `export_retval_none` at concrete inputs. -/
theorem export_retval_none_witness :
    export_to_csv [] true =
      { wroteFile := false, loggedNoData := true, loggedError := false,
        retval := none, rowsWritten := [], newData := [] } ∧
    (export_to_csv [recSample] false).loggedError = true :=
  ⟨(export_retval_none [] true).2.1 rfl,
   ((export_retval_none [recSample] false).2.2 (by decide) rfl).1⟩

/-! ## C10 — `export_to_csv` mutates the stored records; exporting twice
differs -/

/-- C10: `export_to_csv` with non-empty data overwrites each stored record's
`h1`, `h2`, `h3_plus` with the `' | '`-join of their previous values and
leaves every other field unchanged; consequently a second call, which joins
the already-joined strings character by character, does not reproduce the
first call's output. -/
theorem export_mutates_records_not_idempotent :
    (∀ (data : List CsvRecord) (writeOk : Bool), data ≠ [] →
      (export_to_csv data writeOk).newData = data.map joinRecord) ∧
    (∀ r : CsvRecord,
      (joinRecord r).url = r.url ∧ (joinRecord r).title = r.title ∧
      (joinRecord r).meta_description = r.meta_description ∧
      (joinRecord r).body_text = r.body_text ∧
      (joinRecord r).date_crawled = r.date_crawled ∧
      (joinRecord r).errors = r.errors ∧
      (joinRecord r).h1 = .text (pyJoinField r.h1) ∧
      (joinRecord r).h2 = .text (pyJoinField r.h2) ∧
      (joinRecord r).h3_plus = .text (pyJoinField r.h3_plus)) ∧
    (∃ (data : List CsvRecord) (writeOk : Bool), data ≠ [] ∧
      (export_to_csv (export_to_csv data writeOk).newData writeOk).rowsWritten ≠
        (export_to_csv data writeOk).rowsWritten) := by
  refine ⟨?_, ?_, [recSample], true, by decide, by decide⟩
  · intro data writeOk h
    rcases data with _ | ⟨r, rest⟩
    · cases h rfl
    · cases writeOk <;> simp [export_to_csv]
  · intro r
    exact ⟨rfl, rfl, rfl, rfl, rfl, rfl, rfl, rfl, rfl⟩

/-- Witness for `export_mutates_records_not_idempotent` at a concrete
record list. -/
theorem export_mutates_records_witness :
    (export_to_csv [recSample] true).newData = [joinRecord recSample] :=
  export_mutates_records_not_idempotent.1 [recSample] true (by decide)

/-! ## C3 — what `extract_links` returns -/

/-- The accumulator loop of `extract_links` computes `map` then `filter`. -/
theorem extract_links_loop_eq (cfg : Config) (w : World)
    (visited pending : List Str) (base : Str) (anchors : List Str) :
    ∀ links, extract_links_loop cfg w visited pending base anchors links =
      links ++ (anchors.map (resolveHref cfg w base)).filter
        (linkPred cfg w visited pending) := by
  induction anchors with
  | nil => intro links; simp [extract_links_loop]
  | cons href rest ih =>
    intro links
    by_cases h : is_valid_url cfg w (resolveHref cfg w base href) = true ∧
        resolveHref cfg w base href ∉ visited ∧ resolveHref cfg w base href ∉ pending
    · have hp : linkPred cfg w visited pending (resolveHref cfg w base href) = true := by
        simp [linkPred, h.1, h.2.1, h.2.2]
      simp [extract_links_loop, h, ih, List.filter_cons, hp]
    · have hp : linkPred cfg w visited pending (resolveHref cfg w base href) = false := by
        by_cases h1 : is_valid_url cfg w (resolveHref cfg w base href) = true
        · by_cases h2 : resolveHref cfg w base href ∈ visited
          · simp [linkPred, h2]
          · have h3 : resolveHref cfg w base href ∈ pending := by
              by_contra h3
              exact h ⟨h1, h2, h3⟩
            simp [linkPred, h3]
        · simp [linkPred, Bool.eq_false_iff.mpr h1]
      simp [extract_links_loop, h, ih, List.filter_cons, hp]

/-- Any URL returned by `extract_links` passed `is_valid_url`. -/
theorem mem_extract_links_valid {cfg : Config} {w : World} {soup : Soup}
    {base : Str} {visited pending : List Str} {v : Str}
    (hv : v ∈ extract_links cfg w soup base visited pending) :
    is_valid_url cfg w v = true := by
  unfold extract_links at hv
  rw [extract_links_loop_eq] at hv
  simp only [List.nil_append, List.mem_filter] at hv
  have := hv.2
  simp only [linkPred, Bool.and_eq_true] at this
  exact this.1

/-- C3, counterexample: the claim says each URL appears at most once in the
returned list even when several anchors of the page resolve to it.  On a
page whose two anchors resolve to the same URL, `extract_links` (with empty
visited and pending sets) returns that URL twice: the loop checks the
visited set and the pending queue but never its own local `links` list. -/
theorem extract_links_duplicate_anchor :
    extract_links cfgLinks worldLinks soupDupAnchors ("http://x/".toList) [] [] =
      ["http://x/p".toList, "http://x/p".toList] ∧
    ¬ (extract_links cfgLinks worldLinks soupDupAnchors
        ("http://x/".toList) [] []).Nodup := by
  decide

/-- C3, amended: `extract_links` returns, in anchor order, exactly the
resolved URLs that are valid and neither already visited nor already
pending; it preserves order but performs no deduplication within the page,
so a URL resolved from several qualifying anchors appears once per such
anchor. -/
theorem extract_links_filter_spec (cfg : Config) (w : World) (soup : Soup)
    (base : Str) (visited pending : List Str) :
    extract_links cfg w soup base visited pending =
      (soup.anchors.map (resolveHref cfg w base)).filter
        (linkPred cfg w visited pending) := by
  unfold extract_links
  rw [extract_links_loop_eq]
  simp

/-! ## C9 — round-tripping a pipe-delimited heading field -/

theorem splitAux_nil (acc : List Char) : splitAux [] acc = [acc.reverse] := by
  simp [splitAux]

theorem splitAux_sep (t acc : List Char) :
    splitAux (' ' :: '|' :: ' ' :: t) acc = acc.reverse :: splitAux t [] := by
  rw [splitAux]
  simp [sepChars, List.isPrefixOf]

theorem splitAux_not_sep (c : Char) (rest acc : List Char)
    (h : sepChars.isPrefixOf (c :: rest) = false) :
    splitAux (c :: rest) acc = splitAux rest (c :: acc) := by
  rw [splitAux]
  simp [h]

/-- Scanning a pipe-free string finds no separator: the whole remainder
becomes the last piece. -/
theorem splitAux_no_pipe (s : List Char) (hp : '|' ∉ s) :
    ∀ acc, splitAux s acc = [acc.reverse ++ s] := by
  induction s with
  | nil => intro acc; simp [splitAux_nil]
  | cons c s ih =>
    intro acc
    have hsep : sepChars.isPrefixOf (c :: s) = false := by
      cases s with
      | nil => simp [sepChars, List.isPrefixOf]
      | cons d t =>
        have hd : ('|' == d) = false := by
          have : d ≠ '|' := by
            intro h
            exact hp (by simp [h])
          simpa [beq_eq_false_iff_ne] using Ne.symm this
        simp [sepChars, List.isPrefixOf, List.isPrefixOf_cons₂, hd]
    rw [splitAux_not_sep _ _ _ hsep,
      ih (fun h => hp (List.mem_cons_of_mem _ h)) (c :: acc)]
    simp

/-- Scanning a pipe-free piece followed by the separator emits exactly that
piece: with no `'|'` inside the piece, no earlier separator occurrence can
start before the real one. -/
theorem splitAux_piece_sep (x : List Char) (hp : '|' ∉ x) (t : List Char) :
    ∀ acc, splitAux (x ++ sepChars ++ t) acc = (acc.reverse ++ x) :: splitAux t [] := by
  induction x with
  | nil =>
    intro acc
    have : ([] : List Char) ++ sepChars ++ t = ' ' :: '|' :: ' ' :: t := by
      simp [sepChars]
    rw [this, splitAux_sep]
    simp
  | cons c x ih =>
    intro acc
    have hshape : (c :: x) ++ sepChars ++ t = c :: (x ++ sepChars ++ t) := by
      simp
    have hsep : sepChars.isPrefixOf (c :: (x ++ sepChars ++ t)) = false := by
      cases x with
      | nil => simp [sepChars, List.isPrefixOf]
      | cons d t2 =>
        have hd : ('|' == d) = false := by
          have : d ≠ '|' := by
            intro h
            exact hp (by simp [h])
          simpa [beq_eq_false_iff_ne] using Ne.symm this
        simp [sepChars, List.isPrefixOf, hd]
    rw [hshape, splitAux_not_sep _ _ _ hsep,
      ih (fun h => hp (List.mem_cons_of_mem _ h)) (c :: acc)]
    simp

theorem joinStrs_nil : joinStrs [] = [] := rfl

theorem joinStrs_single (x : Str) : joinStrs [x] = x := by
  simp [joinStrs, List.intercalate, List.intersperse]

theorem joinStrs_cons_cons (x y : Str) (ys : List Str) :
    joinStrs (x :: y :: ys) = x ++ sepChars ++ joinStrs (y :: ys) := by
  simp [joinStrs, List.intercalate, List.intersperse]

/-- C9, counterexample: the claim includes the empty heading sequence, but
joining the empty sequence gives the empty string and Python's
`''.split(' | ')` is `['']`, not `[]` — the empty sequence does not
round-trip. -/
theorem split_join_empty_headings :
    pySplit (joinStrs []) = [[]] ∧ pySplit (joinStrs []) ≠ [] := by
  constructor
  · rw [joinStrs_nil]
    simpa using splitAux_nil []
  · rw [joinStrs_nil]
    rw [show pySplit [] = splitAux [] [] from rfl, splitAux_nil]
    simp

/-- C9, amended: for a non-empty heading sequence none of whose entries
contains the pipe character, joining with `' | '` and re-splitting on
`' | '` recovers the original sequence.  (Both restrictions are necessary:
the empty sequence splits back to `['']`, and a heading may not contain
`'|'` at all — e.g. `['a |', 'b']` joins to `'a | | b'`, which splits to
`['a', '| b']` even though no heading contains the full delimiter.) -/
theorem join_split_headings_roundtrip (xs : List Str) (hne : xs ≠ [])
    (hp : ∀ s ∈ xs, '|' ∉ s) : pySplit (joinStrs xs) = xs := by
  induction xs with
  | nil => cases hne rfl
  | cons x xs ih =>
    cases xs with
    | nil =>
      rw [joinStrs_single]
      rw [show pySplit x = splitAux x [] from rfl,
        splitAux_no_pipe x (hp x (by simp)) []]
      simp
    | cons y ys =>
      rw [joinStrs_cons_cons]
      rw [show pySplit (x ++ sepChars ++ joinStrs (y :: ys)) =
        splitAux (x ++ sepChars ++ joinStrs (y :: ys)) [] from rfl]
      rw [splitAux_piece_sep x (hp x (by simp)) _ []]
      have := ih (by simp) (fun s hs => hp s (List.mem_cons_of_mem _ hs))
      rw [show splitAux (joinStrs (y :: ys)) [] = pySplit (joinStrs (y :: ys)) from rfl,
        this]
      simp

/-- Witness for `join_split_headings_roundtrip` on a concrete two-heading
sequence. -/
theorem join_split_headings_roundtrip_witness :
    pySplit (joinStrs ["ab".toList, "c".toList]) = ["ab".toList, "c".toList] :=
  join_split_headings_roundtrip ["ab".toList, "c".toList] (by decide) (by decide)

/-! ## The three possible outcomes of one inner-loop iteration of `crawl()` -/

/-- Case analysis of `processUrl`: the URL is skipped as already visited;
or it is marked visited and the budget `break` fires before any fetch; or
it is marked visited and fetched, possibly appending one record and some
links that all passed `is_valid_url`. -/
theorem processUrl_spec (cfg : Config) (w : World) (st : CrawlState) (url : Str) :
    (url ∈ st.visited ∧ processUrl cfg w st url = (st, false)) ∨
    (url ∉ st.visited ∧ maxPagesReached cfg (st.visited.length + 1) = true ∧
      processUrl cfg w st url = ({ st with visited := url :: st.visited }, true)) ∨
    (url ∉ st.visited ∧ maxPagesReached cfg (st.visited.length + 1) = false ∧
      ∃ ext recs, (recs = [] ∨ recs = [url]) ∧
        (∀ v ∈ ext, is_valid_url cfg w v = true) ∧
        processUrl cfg w st url =
          ({ visited := url :: st.visited,
             urls_to_visit := st.urls_to_visit ++ ext,
             current_depth := st.current_depth,
             data := st.data ++ recs,
             fetched := st.fetched ++ [url] }, false)) := by
  by_cases hv : url ∈ st.visited
  · exact Or.inl ⟨hv, by simp [processUrl, hv]⟩
  · by_cases hm : maxPagesReached cfg (st.visited.length + 1) = true
    · refine Or.inr (Or.inl ⟨hv, hm, ?_⟩)
      simp [processUrl, hv, hm]
    · have hmf : maxPagesReached cfg (st.visited.length + 1) = false :=
        Bool.eq_false_iff.mpr hm
      refine Or.inr (Or.inr ⟨hv, hmf, ?_⟩)
      cases hf : w.fetch url with
      | none =>
        refine ⟨[], [], Or.inl rfl, by simp, ?_⟩
        simp [processUrl, hv, hmf, hf]
      | some soup =>
        by_cases hd : st.current_depth < cfg.max_depth
        · refine ⟨extract_links cfg w soup url (url :: st.visited) st.urls_to_visit,
            [url], Or.inr rfl, fun v hvv => mem_extract_links_valid hvv, ?_⟩
          simp [processUrl, hv, hmf, hf, hd]
        · refine ⟨[], [url], Or.inr rfl, by simp, ?_⟩
          simp [processUrl, hv, hmf, hf, hd]

/-! ## C2 and C4 — the bookkeeping invariant `InvA` -/

theorem invA_init (cfg : Config) : InvA cfg (initState cfg) := by
  refine ⟨List.nodup_nil, List.nodup_nil, by simp [initState], by simp [initState], ?_⟩
  intro m _
  exact Nat.lt_of_lt_of_le Nat.one_pos (le_max_right m 1)

theorem processUrl_invA (cfg : Config) (w : World) (st : CrawlState) (url : Str)
    (h : InvA cfg st) : InvA cfg (processUrl cfg w st url).1 := by
  obtain ⟨h1, h2, h3, h4, h5⟩ := h
  rcases processUrl_spec cfg w st url with ⟨hv, he⟩ | ⟨hv, hm, he⟩ |
    ⟨hv, hm, ext, recs, hrecs, hval, he⟩
  · rw [he]
    exact ⟨h1, h2, h3, h4, h5⟩
  · rw [he]
    exact ⟨List.nodup_cons.mpr ⟨hv, h1⟩, h2,
      fun u hu => List.mem_cons_of_mem _ (h3 u hu), h4, h5⟩
  · rw [he]
    have hnf : url ∉ st.fetched := fun hf => hv (h3 url hf)
    have hsub : st.fetched.length ≤ st.visited.length :=
      (List.subperm_of_subset h2 fun u hu => h3 u hu).length_le
    refine ⟨List.nodup_cons.mpr ⟨hv, h1⟩, ?_, ?_, ?_, ?_⟩
    · exact List.nodup_append.mpr ⟨h2, List.nodup_singleton url,
        by simpa [List.disjoint_singleton] using hnf⟩
    · intro u hu
      rcases List.mem_append.mp hu with h | h
      · exact List.mem_cons_of_mem _ (h3 u h)
      · simp only [List.mem_singleton] at h
        subst h
        exact List.mem_cons_self _ _
    · rcases hrecs with rfl | rfl <;> simp [List.length_append] <;> omega
    · intro m hm2
      have hlt : st.visited.length + 1 < m := by
        simp only [maxPagesReached, hm2, decide_eq_false_iff_not, not_le] at hm
        exact hm
      have hmx : m ≤ max m 1 := le_max_left m 1
      simp only [List.length_append, List.length_singleton]
      omega

theorem processBatch_invA (cfg : Config) (w : World) (batch : List Str) :
    ∀ st, InvA cfg st → InvA cfg (processBatch cfg w st batch) := by
  induction batch with
  | nil => intro st h; simpa [processBatch] using h
  | cons url rest ih =>
    intro st h
    have h1 := processUrl_invA cfg w st url h
    simp only [processBatch]
    by_cases hb : (processUrl cfg w st url).2 = true
    · simp [hb]
      exact h1
    · simp [Bool.eq_false_iff.mpr hb]
      exact ih _ h1

theorem crawlStep_invA (cfg : Config) (w : World) (st : CrawlState)
    (h : InvA cfg st) : InvA cfg (crawlStep cfg w st) :=
  processBatch_invA cfg w st.urls_to_visit { st with urls_to_visit := [] } h

theorem crawlLoop_invA (cfg : Config) (w : World) :
    ∀ (fuel : Nat) (st : CrawlState), InvA cfg st → InvA cfg (crawlLoop cfg w fuel st) := by
  intro fuel
  induction fuel with
  | zero => intro st h; simpa [crawlLoop] using h
  | succ n ih =>
    intro st h
    by_cases hg : st.urls_to_visit ≠ [] ∧ st.current_depth ≤ cfg.max_depth
    · simpa [crawlLoop, hg] using ih _ (crawlStep_invA cfg w st h)
    · simpa [crawlLoop, hg] using h

/-- Each batch only adds to the visited set, never removes. -/
theorem processBatch_visited_mono (cfg : Config) (w : World) :
    ∀ (batch : List Str) (st : CrawlState),
      st.visited ⊆ (processBatch cfg w st batch).visited := by
  intro batch
  induction batch with
  | nil => intro st u hu; exact hu
  | cons url rest ih =>
    intro st
    simp only [processBatch]
    rcases processUrl_spec cfg w st url with ⟨hv, he⟩ | ⟨hv, hm, he⟩ |
      ⟨hv, hm, ext, recs, hrecs, hval, he⟩
    · rw [he]
      simpa using ih st
    · rw [he]
      simp only [if_true]
      exact fun u hu => List.mem_cons_of_mem _ hu
    · rw [he]
      simp only [Bool.false_eq_true, if_false]
      exact fun u hu => ih _ (List.mem_cons_of_mem _ hu)

/-- C2: over any complete crawl, no URL is ever fetched twice — the ghost
fetch log is duplicate-free — every fetched URL had been added to the
visited set before its fetch, and the visited set only ever grows from one
loop iteration to the next. -/
theorem crawl_no_refetch (cfg : Config) (w : World) :
    (crawl cfg w).fetched.Nodup ∧
    (∀ u ∈ (crawl cfg w).fetched, u ∈ (crawl cfg w).visited) ∧
    ∀ st : CrawlState, st.visited ⊆ (crawlStep cfg w st).visited := by
  have h := crawlLoop_invA cfg w (cfg.max_depth + 2) (initState cfg) (invA_init cfg)
  refine ⟨h.2.1, h.2.2.1, ?_⟩
  intro st u hu
  exact processBatch_visited_mono cfg w st.urls_to_visit
    { st with urls_to_visit := [] } hu

/-- C4: with a finite page budget `N ≥ 1`, strictly fewer than `N` URLs are
ever fetched and strictly fewer than `N` records are emitted (the URL whose
addition fills the budget is marked visited but the `break` fires before
its fetch); with `N = 1` no record at all is produced; and whenever the
visited set reaches the budget, some visited URL was never fetched. -/
theorem crawl_budget_break_under (cfg : Config) (w : World) (N : Nat)
    (hN : cfg.max_pages = some N) (h1 : 1 ≤ N) :
    (crawl cfg w).fetched.length < N ∧ (crawl cfg w).data.length < N ∧
    (N = 1 → (crawl cfg w).data = []) ∧
    (N ≤ (crawl cfg w).visited.length →
      (crawl cfg w).fetched.length < (crawl cfg w).visited.length) := by
  unfold crawl
  have h := crawlLoop_invA cfg w (cfg.max_depth + 2) (initState cfg) (invA_init cfg)
  obtain ⟨_, _, _, h4, h5⟩ := h
  have hf := h5 N hN
  rw [max_eq_left h1] at hf
  refine ⟨hf, lt_of_le_of_lt h4 hf, ?_, fun hv => lt_of_lt_of_le hf hv⟩
  intro hN1
  subst hN1
  exact List.length_eq_zero.mp (by omega)

/-- Witness for `crawl_budget_break_under`: with a budget of one page the
crawl fetches nothing and emits no record even though the seed is
reachable. -/
theorem crawl_budget_break_under_witness :
    (crawl cfgBudgetOne worldDepth0).fetched.length < 1 ∧
    (crawl cfgBudgetOne worldDepth0).data.length < 1 ∧
    (1 = 1 → (crawl cfgBudgetOne worldDepth0).data = []) ∧
    (1 ≤ (crawl cfgBudgetOne worldDepth0).visited.length →
      (crawl cfgBudgetOne worldDepth0).fetched.length <
        (crawl cfgBudgetOne worldDepth0).visited.length) :=
  crawl_budget_break_under cfgBudgetOne worldDepth0 1 rfl (by decide)

/-! ## C1 — how large the visited set can get under a finite page budget -/

/-- Queue post-processing only keeps elements of the original queue. -/
theorem mem_nextQueue (cfg : Config) (w : World) (q : List Str) (u : Str)
    (hu : u ∈ nextQueue cfg w q) : u ∈ q := by
  unfold nextQueue at hu
  by_cases hbf : cfg.breadth_first <;> simp only [hbf, if_true, if_false] at hu <;>
    [skip; exact (w.shuffle_perm q).mem_iff.mp (by
      by_cases hl : (w.shuffle q).length > cfg.max_queue_size
      · exact List.take_subset _ _ (by simpa [hl] using hu)
      · simpa [hl] using hu)]
  by_cases hl : q.length > cfg.max_queue_size
  · exact List.take_subset _ _ (by simpa [hl] using hu)
  · simpa [hl] using hu

/-- Starting a batch strictly below the budget, the batch loop never lets
the visited set grow past the budget: the `break` fires as soon as the
budget is reached. -/
theorem processBatch_visited_lt (cfg : Config) (w : World) (m : Nat)
    (hm : cfg.max_pages = some m) :
    ∀ (batch : List Str) (st : CrawlState), st.visited.length < m →
      (processBatch cfg w st batch).visited.length ≤ m := by
  intro batch
  induction batch with
  | nil => intro st h; simp only [processBatch]; omega
  | cons url rest ih =>
    intro st h
    simp only [processBatch]
    rcases processUrl_spec cfg w st url with ⟨hv, he⟩ | ⟨hv, hmr, he⟩ |
      ⟨hv, hmr, ext, recs, hrecs, hval, he⟩
    · rw [he]
      simpa using ih st h
    · rw [he]
      simp only [if_true]
      simp only [List.length_cons]
      omega
    · rw [he]
      simp only [Bool.false_eq_true, if_false]
      apply ih
      simp only [maxPagesReached, hm, decide_eq_false_iff_not, Nat.not_le] at hmr
      simp only [List.length_cons]
      omega

/-- Starting a batch at or above the budget, at most one more URL is added
(the `break` fires on the first fresh URL, before any fetch) and the
next-depth queue is left untouched. -/
theorem processBatch_visited_ge (cfg : Config) (w : World) (m : Nat)
    (hm : cfg.max_pages = some m) :
    ∀ (batch : List Str) (st : CrawlState), m ≤ st.visited.length →
      (processBatch cfg w st batch).urls_to_visit = st.urls_to_visit ∧
      (processBatch cfg w st batch).visited.length ≤ st.visited.length + 1 := by
  intro batch
  induction batch with
  | nil => intro st h; exact ⟨rfl, Nat.le_succ _⟩
  | cons url rest ih =>
    intro st h
    simp only [processBatch]
    rcases processUrl_spec cfg w st url with ⟨hv, he⟩ | ⟨hv, hmr, he⟩ |
      ⟨hv, hmr, ext, recs, hrecs, hval, he⟩
    · rw [he]
      simpa using ih st h
    · rw [he]
      simp
    · exfalso
      simp only [maxPagesReached, hm, decide_eq_false_iff_not, Nat.not_le] at hmr
      omega

theorem crawlStep_visited_eq (cfg : Config) (w : World) (st : CrawlState) :
    (crawlStep cfg w st).visited =
      (processBatch cfg w { st with urls_to_visit := [] } st.urls_to_visit).visited := rfl

theorem crawlStep_pending_eq (cfg : Config) (w : World) (st : CrawlState) :
    (crawlStep cfg w st).urls_to_visit =
      nextQueue cfg w
        (processBatch cfg w { st with urls_to_visit := [] } st.urls_to_visit).urls_to_visit :=
  rfl

theorem crawlStep_invP (cfg : Config) (w : World) (m : Nat)
    (hm : cfg.max_pages = some m) (st : CrawlState)
    (hle : st.visited.length ≤ m) : InvP m (crawlStep cfg w st) := by
  rcases Nat.lt_or_ge st.visited.length m with hlt | hge
  · have h := processBatch_visited_lt cfg w m hm st.urls_to_visit
      { st with urls_to_visit := [] } hlt
    constructor
    · rw [crawlStep_visited_eq]
      omega
    · intro _
      rw [crawlStep_visited_eq]
      exact h
  · have h := processBatch_visited_ge cfg w m hm st.urls_to_visit
      { st with urls_to_visit := [] } hge
    have h2 := h.2
    simp only [List.length_cons] at h2
    constructor
    · rw [crawlStep_visited_eq]
      have hmv : ({ st with urls_to_visit := ([] : List Str) }).visited = st.visited := rfl
      rw [hmv] at h2
      omega
    · intro hne
      exfalso
      apply hne
      rw [crawlStep_pending_eq]
      have hp : (processBatch cfg w { st with urls_to_visit := [] }
          st.urls_to_visit).urls_to_visit = [] := by
        simpa using h.1
      rw [hp]
      unfold nextQueue
      simp [(w.shuffle_perm []).eq_nil]

theorem invP_init (cfg : Config) (m : Nat) : InvP m (initState cfg) :=
  ⟨by simp [initState], fun _ => by simp [initState]⟩

theorem crawlLoop_invP (cfg : Config) (w : World) (m : Nat)
    (hm : cfg.max_pages = some m) :
    ∀ (fuel : Nat) (st : CrawlState), InvP m st → InvP m (crawlLoop cfg w fuel st) := by
  intro fuel
  induction fuel with
  | zero => intro st h; simpa [crawlLoop] using h
  | succ n ih =>
    intro st h
    by_cases hg : st.urls_to_visit ≠ [] ∧ st.current_depth ≤ cfg.max_depth
    · simpa [crawlLoop, hg] using ih _ (crawlStep_invP cfg w m hm st (h.2 hg.1))
    · simpa [crawlLoop, hg] using h

/-- C1, counterexample: the claim bounds the visited-set size by the
configured max pages.  With a budget of three pages, a seed linking to two
pages whose first links to a third, the crawl ends with four URLs in the
visited set: the budget test breaks only the inner batch loop, and each
later depth adds one more URL before its own test fires. -/
theorem crawl_visited_exceeds_budget :
    cfgBudget.max_pages = some 3 ∧
    (crawl cfgBudget worldBudget).visited.length = 4 := by
  constructor
  · rfl
  · decide

/-- C1, amended: with a finite page budget `m`, the visited set never grows
past `m + 1`; once it exceeds `m` the queue is empty and the crawl is about
to terminate, so the overshoot is at most one URL. -/
theorem crawl_visited_le_budget_succ (cfg : Config) (w : World) (m : Nat)
    (hm : cfg.max_pages = some m) :
    (crawl cfg w).visited.length ≤ m + 1 := by
  unfold crawl
  exact (crawlLoop_invP cfg w m hm _ _ (invP_init cfg m)).1

/-- Witness for `crawl_visited_le_budget_succ` at the concrete crawl that
attains the bound. -/
theorem crawl_visited_le_budget_succ_witness :
    (crawl cfgBudget worldBudget).visited.length ≤ 3 + 1 :=
  crawl_visited_le_budget_succ cfgBudget worldBudget 3 rfl

/-! ## C6 — ignored extensions and the seed URL: the invariant `InvC` -/

theorem processUrl_invC (cfg : Config) (w : World) (st : CrawlState) (url : Str)
    (hu : UrlOk cfg w url) (h : InvC cfg w st) :
    InvC cfg w (processUrl cfg w st url).1 := by
  obtain ⟨h1, h2, h3⟩ := h
  rcases processUrl_spec cfg w st url with ⟨hv, he⟩ | ⟨hv, hm, he⟩ |
    ⟨hv, hm, ext, recs, hrecs, hval, he⟩
  · rw [he]
    exact ⟨h1, h2, h3⟩
  · rw [he]
    exact ⟨h1, h2, h3⟩
  · rw [he]
    refine ⟨?_, ?_, ?_⟩
    · intro u huu
      rcases List.mem_append.mp huu with hmem | hmem
      · exact h1 u hmem
      · exact Or.inr (hval u hmem)
    · intro u huu
      rcases List.mem_append.mp huu with hmem | hmem
      · exact h2 u hmem
      · rcases hrecs with rfl | rfl
        · cases hmem
        · simp only [List.mem_singleton] at hmem
          subst hmem
          exact hu
    · intro u huu
      rcases List.mem_append.mp huu with hmem | hmem
      · exact h3 u hmem
      · simp only [List.mem_singleton] at hmem
        subst hmem
        exact hu

theorem processBatch_invC (cfg : Config) (w : World) :
    ∀ (batch : List Str) (st : CrawlState), (∀ u ∈ batch, UrlOk cfg w u) →
      InvC cfg w st → InvC cfg w (processBatch cfg w st batch) := by
  intro batch
  induction batch with
  | nil => intro st _ h; simpa [processBatch] using h
  | cons url rest ih =>
    intro st hb h
    have h1 := processUrl_invC cfg w st url (hb url (by simp)) h
    simp only [processBatch]
    by_cases hbrk : (processUrl cfg w st url).2 = true
    · simp only [hbrk, if_true]
      exact h1
    · simp only [Bool.eq_false_iff.mpr hbrk, Bool.false_eq_true, if_false]
      exact ih _ (fun u hu => hb u (List.mem_cons_of_mem _ hu)) h1

theorem crawlStep_invC (cfg : Config) (w : World) (st : CrawlState)
    (h : InvC cfg w st) : InvC cfg w (crawlStep cfg w st) := by
  have hmid : InvC cfg w { st with urls_to_visit := [] } :=
    ⟨fun u hu => absurd hu (List.not_mem_nil u), h.2.1, h.2.2⟩
  have h1 := processBatch_invC cfg w st.urls_to_visit _ h.1 hmid
  exact ⟨fun u hu => h1.1 u (mem_nextQueue cfg w _ u hu), h1.2.1, h1.2.2⟩

theorem invC_init (cfg : Config) (w : World) : InvC cfg w (initState cfg) := by
  refine ⟨?_, ?_, ?_⟩ <;> intro u hu
  · have : u = cfg.start_url := by simpa [initState] using hu
    exact Or.inl this
  · simp [initState] at hu
  · simp [initState] at hu

theorem crawlLoop_invC (cfg : Config) (w : World) :
    ∀ (fuel : Nat) (st : CrawlState), InvC cfg w st →
      InvC cfg w (crawlLoop cfg w fuel st) := by
  intro fuel
  induction fuel with
  | zero => intro st h; simpa [crawlLoop] using h
  | succ n ih =>
    intro st h
    by_cases hg : st.urls_to_visit ≠ [] ∧ st.current_depth ≤ cfg.max_depth
    · simpa [crawlLoop, hg] using ih _ (crawlStep_invC cfg w st h)
    · simpa [crawlLoop, hg] using h

/-- C6, counterexample: the claim covers the record produced for the seed
URL whatever its suffix is.  The seed is enqueued by `__init__` without ever
passing `is_valid_url`, so a seed ending in `.pdf` is fetched and yields a
record whose URL ends in a configured ignored extension. -/
theorem crawl_seed_ignored_ext :
    (crawl cfgSeedExt worldSeedExt).data = [cfgSeedExt.start_url] ∧
    hasIgnoredExt cfgSeedExt cfgSeedExt.start_url = true := by
  decide

/-- C6, amended: every emitted record's URL other than the seed's was
accepted by `is_valid_url`, so it does not end (case-insensitively) in a
configured ignored extension; only the seed URL is exempt from the
filter. -/
theorem crawl_nonseed_no_ignored_ext (cfg : Config) (w : World) (u : Str)
    (hu : u ∈ (crawl cfg w).data) (hne : u ≠ cfg.start_url) :
    hasIgnoredExt cfg u = false := by
  have h := crawlLoop_invC cfg w (cfg.max_depth + 2) (initState cfg) (invC_init cfg w)
  rcases h.2.1 u hu with rfl | hvalid
  · cases hne rfl
  · cases hh : hasIgnoredExt cfg u with
    | false => rfl
    | true =>
      exfalso
      simp [is_valid_url, hh] at hvalid

/-- Witness for `crawl_nonseed_no_ignored_ext`: a concrete crawl in which a
non-seed page is recorded and its URL passes the extension filter. -/
theorem crawl_nonseed_no_ignored_ext_witness :
    "http://x/p".toList ∈ (crawl cfgLinks worldLinks).data ∧
    hasIgnoredExt cfgLinks ("http://x/p".toList) = false :=
  ⟨by decide,
   crawl_nonseed_no_ignored_ext cfgLinks worldLinks _ (by decide) (by decide)⟩

/-! ## C7 — a depth-zero crawl -/

/-- C7: with `max_depth = 0`, a successful seed fetch and a page budget that
permits it, the crawl emits exactly one record (for the seed), fetches
nothing else, and follows no links — whatever anchors the seed page has. -/
theorem crawl_depth_zero_single_record (cfg : Config) (w : World) (soup : Soup)
    (hd : cfg.max_depth = 0) (hf : w.fetch cfg.start_url = some soup)
    (hb : maxPagesReached cfg 1 = false) :
    (crawl cfg w).data = [cfg.start_url] ∧
    (crawl cfg w).fetched = [cfg.start_url] ∧
    (crawl cfg w).urls_to_visit = [] := by
  have hs : w.shuffle [] = [] := (w.shuffle_perm []).eq_nil
  unfold crawl
  rw [hd]
  simp [crawlLoop, initState, crawlStep, processBatch, processUrl, nextQueue,
    hf, hb, hs, hd]

/-- Witness for `crawl_depth_zero_single_record` at a concrete crawl whose
seed page has an anchor. -/
theorem crawl_depth_zero_single_record_witness :
    (crawl cfgDepth0 worldDepth0).data = [cfgDepth0.start_url] ∧
    (crawl cfgDepth0 worldDepth0).fetched = [cfgDepth0.start_url] ∧
    (crawl cfgDepth0 worldDepth0).urls_to_visit = [] :=
  crawl_depth_zero_single_record cfgDepth0 worldDepth0 ⟨["a".toList]⟩ rfl rfl rfl

end CrawlData
